import Mathlib

/-!
Verification of the P-gina-Web repository: the frontend helpers in
`frontend/lib/api.js` and `frontend/pages/index.js`, and the Ticket
Intelligence & SLA Engine described by the design document.  JavaScript
strings are embedded as `List Char`; fallible operations return explicit
result types.
-/

/-- JavaScript `String.prototype.trim`: remove whitespace from both ends. -/
def jsTrim (s : List Char) : List Char :=
  ((s.dropWhile Char.isWhitespace).reverse.dropWhile Char.isWhitespace).reverse

/-- JavaScript `String.prototype.toLowerCase`, character by character. -/
def jsToLower (s : List Char) : List Char :=
  s.map Char.toLower

/-- JavaScript `String.prototype.includes`: substring containment. -/
def jsIncludes (s pat : List Char) : Bool :=
  decide (pat <:+: s)

/-- An HTTP response as observed by `fetchJSON` in `frontend/lib/api.js`. -/
structure HttpResponse where
  ok : Bool
  status : Nat
  body : List Char
  contentType : Option (List Char)

/-- Outcomes of `fetchJSON`: a thrown `Error` carrying a message, or a
returned value (`null`, the parsed JSON of the body, or the raw body text). -/
inductive FetchResult where
  | thrown : List Char → FetchResult
  | nullValue : FetchResult
  | jsonBody : List Char → FetchResult
  | textBody : List Char → FetchResult
deriving DecidableEq

/-- The fallback error message `fetchJSON` uses when the error body is empty. -/
def defaultFetchError : List Char := "Error al obtener datos".toList

/-- The content-type marker `fetchJSON` looks for. -/
def jsonContentType : List Char := "application/json".toList

/-- `fetchJSON` from `frontend/lib/api.js` as a function of the received
response: a non-ok response throws (body text, or the fallback when that is
empty), ok status 204 returns `null`, a content type containing
`application/json` returns the parsed body, anything else the body text. -/
def fetchJSON (r : HttpResponse) : FetchResult :=
  if !r.ok then
    .thrown (if r.body.isEmpty then defaultFetchError else r.body)
  else if r.status = 204 then
    .nullValue
  else
    match r.contentType with
    | some ct => if jsIncludes ct jsonContentType then .jsonBody r.body else .textBody r.body
    | none => .textBody r.body

/-- Claim C8: `fetchJSON` throws an error whose message is the body text, or
the fallback message when that text is empty, exactly when the response is
not ok; returns `null` on an ok 204 response; and otherwise returns the
parsed JSON body when the content-type header contains `application/json`
and the raw body text when it does not or the header is absent. -/
theorem fetchJSON_spec (r : HttpResponse) :
    (r.ok = false →
      fetchJSON r = .thrown (if r.body = [] then defaultFetchError else r.body)) ∧
    (r.ok = true → r.status = 204 → fetchJSON r = .nullValue) ∧
    (r.ok = true → r.status ≠ 204 →
      (∀ ct, r.contentType = some ct →
        (jsonContentType <:+: ct → fetchJSON r = .jsonBody r.body) ∧
        (¬ jsonContentType <:+: ct → fetchJSON r = .textBody r.body)) ∧
      (r.contentType = none → fetchJSON r = .textBody r.body)) := by
  unfold fetchJSON
  refine ⟨fun hok => ?_, fun hok h204 => ?_, fun hok h204 => ⟨fun ct hct => ⟨?_, ?_⟩, ?_⟩⟩
  · by_cases hb : r.body = [] <;>
      simp [hok, hb, List.isEmpty_iff]
  · simp [hok, h204]
  · intro hinf
    simp [hok, h204, hct, jsIncludes, hinf]
  · intro hinf
    simp [hok, h204, hct, jsIncludes, hinf]
  · intro hnone
    simp [hok, h204, hnone]

/-- Claim C8 witness: a concrete failing response with an empty body throws
the fallback message. -/
theorem fetchJSON_spec_witness :
    fetchJSON ⟨false, 500, [], none⟩ = .thrown defaultFetchError := by
  have h := (fetchJSON_spec ⟨false, 500, [], none⟩).1 rfl
  simpa using h

/-- A trámite as rendered by `TramitesPage` in `frontend/pages/index.js`. -/
structure Tramite where
  id : Nat
  nombre : List Char
  descripcion : List Char
deriving DecidableEq

/-- The search predicate of `TramitesPage`: the nombre or the descripcion,
lowercased, contains the search term. -/
def tramiteMatches (term : List Char) (t : Tramite) : Bool :=
  jsIncludes (jsToLower t.nombre) term || jsIncludes (jsToLower t.descripcion) term

/-- The `filtered` memo of `TramitesPage`: with `term` the trimmed,
lowercased query, the full list when `term` is empty, otherwise the entries
matching `term`. -/
def filteredTramites (query : List Char) (tramites : List Tramite) : List Tramite :=
  let term := jsToLower (jsTrim query)
  if term.isEmpty then tramites
  else tramites.filter (tramiteMatches term)

/-- Claim C9: when the trimmed query is empty the filtered list is the full
list in its original order; otherwise it is exactly the order-preserving
filter keeping the entries whose nombre or descripcion, lowercased, contains
the trimmed lowercased query as a substring. -/
theorem filteredTramites_spec (query : List Char) (ts : List Tramite) :
    (jsTrim query = [] → filteredTramites query ts = ts) ∧
    (jsTrim query ≠ [] →
      filteredTramites query ts =
        ts.filter (fun t =>
          decide (jsToLower (jsTrim query) <:+: jsToLower t.nombre ∨
                  jsToLower (jsTrim query) <:+: jsToLower t.descripcion))) := by
  constructor
  · intro h
    simp [filteredTramites, h, jsToLower]
  · intro h
    have hne : jsToLower (jsTrim query) ≠ [] := by
      simpa [jsToLower] using h
    unfold filteredTramites
    simp only [List.isEmpty_iff]
    rw [if_neg hne]
    apply List.filter_congr
    intro t ht
    simp [tramiteMatches, jsIncludes, Bool.decide_or]

/-- Claim C9 witness: a whitespace-only query leaves a concrete list intact. -/
theorem filteredTramites_spec_witness :
    filteredTramites " ".toList [⟨1, "Poder".toList, "Tramite".toList⟩] =
      [⟨1, "Poder".toList, "Tramite".toList⟩] :=
  (filteredTramites_spec " ".toList [⟨1, "Poder".toList, "Tramite".toList⟩]).1 (by decide)

/-- A compareciente entry as built by `handleIndice`: an object with a single
`nombre` field wrapping one trimmed line. -/
structure Compareciente where
  nombre : List Char
deriving DecidableEq

/-- One registro of the `/admin/indice` payload built by `handleIndice`. -/
structure IndiceRegistro where
  numero : List Char
  fecha : List Char
  tipo : List Char
  comparecientes : List Compareciente
deriving DecidableEq

/-- The values of the índice form in `AdminPage`. -/
structure IndiceValues where
  token : List Char
  numero : List Char
  fecha : List Char
  tipo : List Char
  comparecientes : List Char

/-- The payload posted to `/admin/indice` by `handleIndice`. -/
structure IndicePayload where
  token : List Char
  registros : List IndiceRegistro
deriving DecidableEq

/-- The comparecientes list built by `handleIndice`: split the textarea text
on newlines, trim each line, drop the lines that end up empty, and wrap each
survivor as an object with one `nombre` field. -/
def comparecientesOf (text : List Char) : List Compareciente :=
  (((text.splitOn '\n').map jsTrim).filter (fun s => !s.isEmpty)).map Compareciente.mk

/-- `handleIndice` from `AdminPage` in `frontend/pages/index.js`: the payload
it posts, with `registros` a one-element list. -/
def handleIndicePayload (v : IndiceValues) : IndicePayload :=
  { token := v.token
    registros := [{ numero := v.numero, fecha := v.fecha, tipo := v.tipo,
                    comparecientes := comparecientesOf v.comparecientes }] }

/-- The claim's description of the comparecientes list, written directly as a
recursion over the split lines: trim each line, drop it when it is empty
after trimming, otherwise keep the wrapped trimmed line, preserving order. -/
def comparecientesSpec : List (List Char) → List Compareciente
  | [] => []
  | line :: rest =>
    if (jsTrim line).isEmpty then comparecientesSpec rest
    else ⟨jsTrim line⟩ :: comparecientesSpec rest

/-- The map-filter-map pipeline of `handleIndice` agrees with the direct
recursive description of the claim. -/
theorem comparecientesOf_eq_spec (lines : List (List Char)) :
    ((lines.map jsTrim).filter (fun s => !s.isEmpty)).map Compareciente.mk =
      comparecientesSpec lines := by
  induction lines with
  | nil => rfl
  | cons l rest ih =>
    by_cases h : (jsTrim l).isEmpty
    · simp [comparecientesSpec, h, ih]
    · simp [comparecientesSpec, h, ih]

/-- Claim C10: the payload submitted by `handleIndice` carries `registros` as
a one-element list whose `comparecientes` field lists, in original line
order, the objects wrapping each nonempty trimmed line of the textarea. -/
theorem handleIndicePayload_spec (v : IndiceValues) :
    handleIndicePayload v =
      { token := v.token
        registros := [{ numero := v.numero, fecha := v.fecha, tipo := v.tipo,
                        comparecientes :=
                          comparecientesSpec (v.comparecientes.splitOn '\n') }] } := by
  unfold handleIndicePayload comparecientesOf
  rw [comparecientesOf_eq_spec]

/-- Ticket status in the data model of the design document. -/
inductive TicketStatus where
  | open_
  | inProgress
  | resolved
  | closed
deriving DecidableEq

/-- Ticket priority, the ordered enum of the data model. -/
inductive TicketPriority where
  | low
  | medium
  | high
  | critical
deriving DecidableEq

/-- SLA severity of a ticket. -/
inductive Severity where
  | none
  | warning
  | breach
deriving DecidableEq

/-- Modelled from the spec: the `SLAEvaluator` of §4.5, whose implementation
is not part of the repository snapshot.  A resolved or closed ticket is
`none` regardless of elapsed time; otherwise the quotient of the elapsed
time `now - createdAt` by the priority's deadline classifies the ticket as
`breach` when at least `1`, `warning` when at least the warn fraction, and
`none` below that. -/
def slaSeverity (status : TicketStatus) (now createdAt deadline warnRatio : ℚ) : Severity :=
  if status = .resolved ∨ status = .closed then .none
  else
    let elapsed := now - createdAt
    if elapsed / deadline ≥ 1 then .breach
    else if elapsed / deadline ≥ warnRatio then .warning
    else .none

/-- Claim C1: a resolved or closed ticket is classified `none`; otherwise,
with the deadline taken from the per-priority table, the ticket is `breach`
when the elapsed/deadline quotient is at least one (in particular when the
elapsed time equals the deadline), `warning` when the quotient lies between
the warn fraction and one (in particular when the elapsed time equals warn
fraction times deadline), and `none` otherwise. -/
theorem slaSeverity_spec (status : TicketStatus) (table : TicketPriority → ℚ)
    (p : TicketPriority) (now createdAt warnRatio : ℚ) :
    (status = .resolved ∨ status = .closed →
      slaSeverity status now createdAt (table p) warnRatio = .none) ∧
    (status ≠ .resolved → status ≠ .closed →
      ((now - createdAt) / table p ≥ 1 →
        slaSeverity status now createdAt (table p) warnRatio = .breach) ∧
      (warnRatio ≤ (now - createdAt) / table p → (now - createdAt) / table p < 1 →
        slaSeverity status now createdAt (table p) warnRatio = .warning) ∧
      ((now - createdAt) / table p < 1 → (now - createdAt) / table p < warnRatio →
        slaSeverity status now createdAt (table p) warnRatio = .none) ∧
      (0 < table p → now - createdAt = table p →
        slaSeverity status now createdAt (table p) warnRatio = .breach) ∧
      (0 < table p → warnRatio < 1 → now - createdAt = warnRatio * table p →
        slaSeverity status now createdAt (table p) warnRatio = .warning)) := by
  constructor
  · intro h
    simp [slaSeverity, h]
  · intro h1 h2
    have hs : ¬(status = TicketStatus.resolved ∨ status = TicketStatus.closed) := by
      rintro (h | h)
      · exact h1 h
      · exact h2 h
    refine ⟨fun hr => ?_, fun hw hl => ?_, fun hl hw => ?_, fun hd he => ?_,
      fun hd hw1 he => ?_⟩
    · simp [slaSeverity, hs, hr]
    · simp [slaSeverity, hs, hw, hl.not_le]
    · simp [slaSeverity, hs, hl.not_le, hw.not_le]
    · have hq : (now - createdAt) / table p = 1 := by
        rw [he, div_self hd.ne']
      simp [slaSeverity, hs, hq]
    · have hq : (now - createdAt) / table p = warnRatio := by
        rw [he, mul_div_cancel_right₀ _ hd.ne']
      simp [slaSeverity, hs, hq, hw1.not_le, le_refl]

/-- Claim C1 witness: the end-to-end scenario of §8 — deadline 240 minutes,
warn fraction 3/4, an open ticket 181 minutes old is a `warning`. -/
theorem slaSeverity_spec_witness :
    slaSeverity .open_ 181 0 240 (3/4) = .warning := by
  have h := ((slaSeverity_spec .open_ (fun _ => (240 : ℚ)) .high 181 0 (3/4)).2
      (by simp) (by simp)).2.1 (by norm_num) (by norm_num)
  simpa using h

/-- Modelled from the spec: an `AssignmentRule` of §3 — optional match
predicates on category, subcategory and area, a target technician and a
priority integer used for ordering; the rule list is in insertion order. -/
structure AssignmentRule where
  category : Option String
  subcategory : Option String
  area : Option String
  technician : String
  priority : Int
deriving DecidableEq

/-- The ticket attributes the `RuleMatcher` reads. -/
structure TicketAttrs where
  category : String
  subcategory : String
  area : String
deriving DecidableEq

/-- Modelled from the spec: a rule matches when each specified predicate
equals the ticket's value; an omitted predicate matches any value. -/
def ruleMatches (r : AssignmentRule) (t : TicketAttrs) : Bool :=
  (match r.category with
    | Option.none => true
    | some c => decide (c = t.category)) &&
  (match r.subcategory with
    | Option.none => true
    | some c => decide (c = t.subcategory)) &&
  (match r.area with
    | Option.none => true
    | some c => decide (c = t.area))

/-- Modelled from the spec: the `RuleMatcher` selection of §4.1 — among the
rules whose predicates all match, the first by ascending priority value,
ties broken by insertion order (the earlier rule wins).  A matching head
rule wins unless a strictly lower-priority rule matches further down. -/
def bestRule (t : TicketAttrs) : List AssignmentRule → Option AssignmentRule
  | [] => Option.none
  | r :: rest =>
    if ruleMatches r t then
      match bestRule t rest with
      | Option.none => some r
      | some r0 => if r0.priority < r.priority then some r0 else some r
    else bestRule t rest

/-- Modelled from the spec: the matcher's result — the winning rule's
technician, or unassigned (`none`) when no rule matches. -/
def matchRules (rules : List AssignmentRule) (t : TicketAttrs) : Option String :=
  (bestRule t rules).map AssignmentRule.technician

/-- Modelled from the spec: persisting the matcher's result — an unassigned
result leaves the ticket's prior assignment untouched. -/
def applyAssignment (prior result : Option String) : Option String :=
  match result with
  | some tech => some tech
  | Option.none => prior

/-- Replacing a rule's technician while keeping its predicates and priority. -/
def retargetRule (r : AssignmentRule) (c : String) : AssignmentRule :=
  { r with technician := c }

/-- No rule wins exactly when no rule matches. -/
theorem bestRule_eq_none (t : TicketAttrs) (rules : List AssignmentRule) :
    bestRule t rules = Option.none ↔ ∀ r ∈ rules, ruleMatches r t = false := by
  induction rules with
  | nil => simp [bestRule]
  | cons r rest ih =>
    rw [bestRule]
    by_cases h : ruleMatches r t = true
    · rw [if_pos h]
      cases hbr : bestRule t rest with
      | none =>
        simp only [List.forall_mem_cons]
        constructor
        · intro hb
          exact absurd hb (by simp)
        · intro hall
          rw [hall.1] at h
          exact absurd h (by simp)
      | some r0 =>
        simp only [List.forall_mem_cons]
        constructor
        · intro hb
          split at hb <;> exact absurd hb (by simp)
        · intro hall
          rw [hall.1] at h
          exact absurd h (by simp)
    · rw [if_neg h]
      rw [Bool.not_eq_true] at h
      simp [List.forall_mem_cons, ih, h]

/-- The winning rule matches and has minimal priority among matching rules. -/
theorem bestRule_minimal (t : TicketAttrs) (rules : List AssignmentRule)
    (w : AssignmentRule) (hw : bestRule t rules = some w) :
    ruleMatches w t = true ∧ w ∈ rules ∧
      ∀ r ∈ rules, ruleMatches r t = true → w.priority ≤ r.priority := by
  induction rules generalizing w with
  | nil => simp [bestRule] at hw
  | cons r rest ih =>
    rw [bestRule] at hw
    by_cases h : ruleMatches r t = true
    · rw [if_pos h] at hw
      cases hbr : bestRule t rest with
      | none =>
        rw [hbr] at hw
        obtain rfl : r = w := by injection hw
        have hnone := (bestRule_eq_none t rest).mp hbr
        refine ⟨h, List.mem_cons_self r rest, ?_⟩
        intro r' hr' hm
        rcases List.mem_cons.mp hr' with rfl | hr'
        · exact le_refl _
        · rw [hnone r' hr'] at hm
          exact absurd hm (by simp)
      | some r0 =>
        rw [hbr] at hw
        dsimp only at hw
        obtain ⟨hm0, hmem0, hmin0⟩ := ih r0 hbr
        by_cases hlt : r0.priority < r.priority
        · rw [if_pos hlt] at hw
          obtain rfl : r0 = w := by injection hw
          refine ⟨hm0, List.mem_cons_of_mem _ hmem0, ?_⟩
          intro r' hr' hm
          rcases List.mem_cons.mp hr' with rfl | hr'
          · exact le_of_lt hlt
          · exact hmin0 r' hr' hm
        · rw [if_neg hlt] at hw
          obtain rfl : r = w := by injection hw
          refine ⟨h, List.mem_cons_self r rest, ?_⟩
          intro r' hr' hm
          rcases List.mem_cons.mp hr' with rfl | hr'
          · exact le_refl _
          · exact le_trans (not_lt.mp hlt) (hmin0 r' hr' hm)
    · rw [if_neg h] at hw
      obtain ⟨hmw, hmem, hmin⟩ := ih w hw
      refine ⟨hmw, List.mem_cons_of_mem _ hmem, ?_⟩
      intro r' hr' hm
      rcases List.mem_cons.mp hr' with rfl | hr'
      · exact absurd hm h
      · exact hmin r' hr' hm

/-- The winning rule is the first match: every matching rule before it has a
strictly larger priority value, every matching rule after it has a priority
value at least as large. -/
theorem bestRule_first (t : TicketAttrs) (rules : List AssignmentRule)
    (w : AssignmentRule) (hw : bestRule t rules = some w) :
    ruleMatches w t = true ∧
      ∃ pre post, rules = pre ++ w :: post ∧
        (∀ r ∈ pre, ruleMatches r t = true → w.priority < r.priority) ∧
        (∀ r ∈ post, ruleMatches r t = true → w.priority ≤ r.priority) := by
  induction rules generalizing w with
  | nil => simp [bestRule] at hw
  | cons r rest ih =>
    rw [bestRule] at hw
    by_cases h : ruleMatches r t = true
    · rw [if_pos h] at hw
      cases hbr : bestRule t rest with
      | none =>
        rw [hbr] at hw
        obtain rfl : r = w := by injection hw
        have hnone := (bestRule_eq_none t rest).mp hbr
        refine ⟨h, [], rest, rfl, by simp, ?_⟩
        intro r' hr' hm
        rw [hnone r' hr'] at hm
        exact absurd hm (by simp)
      | some r0 =>
        rw [hbr] at hw
        dsimp only at hw
        by_cases hlt : r0.priority < r.priority
        · rw [if_pos hlt] at hw
          obtain rfl : r0 = w := by injection hw
          obtain ⟨hmw, pre, post, heq, hpre, hpost⟩ := ih r0 hbr
          refine ⟨hmw, r :: pre, post, by rw [heq, List.cons_append], ?_, hpost⟩
          intro r' hr' hm
          rcases List.mem_cons.mp hr' with rfl | hr'
          · exact hlt
          · exact hpre r' hr' hm
        · rw [if_neg hlt] at hw
          obtain rfl : r = w := by injection hw
          obtain ⟨hm0, hmem0, hmin0⟩ := bestRule_minimal t rest r0 hbr
          refine ⟨h, [], rest, rfl, by simp, ?_⟩
          intro r' hr' hm
          exact le_trans (not_lt.mp hlt) (hmin0 r' hr' hm)
    · rw [if_neg h] at hw
      obtain ⟨hmw, pre, post, heq, hpre, hpost⟩ := ih w hw
      refine ⟨hmw, r :: pre, post, by rw [heq, List.cons_append], ?_, hpost⟩
      intro r' hr' hm
      rcases List.mem_cons.mp hr' with rfl | hr'
      · exact absurd hm h
      · exact hpre r' hr' hm

/-- Replacing the technician of the rule at position `j` either leaves the
selection unchanged, or that very rule was the winner and stays the winner
with its new technician. -/
theorem bestRule_set_retarget (t : TicketAttrs) (rules : List AssignmentRule)
    (j : Nat) (hj : j < rules.length) (c : String) :
    bestRule t (rules.set j (retargetRule (rules.get ⟨j, hj⟩) c)) = bestRule t rules ∨
      (bestRule t rules = some (rules.get ⟨j, hj⟩) ∧
        bestRule t (rules.set j (retargetRule (rules.get ⟨j, hj⟩) c)) =
          some (retargetRule (rules.get ⟨j, hj⟩) c)) := by
  induction rules generalizing j with
  | nil => simp at hj
  | cons r rest ih =>
    cases j with
    | zero =>
      simp only [List.get, List.set]
      rw [bestRule, bestRule]
      have hmr : ruleMatches (retargetRule r c) t = ruleMatches r t := rfl
      by_cases h : ruleMatches r t = true
      · rw [hmr, if_pos h, if_pos h]
        cases hbr : bestRule t rest with
        | none => exact Or.inr ⟨rfl, rfl⟩
        | some r0 =>
          dsimp only [retargetRule]
          by_cases hlt : r0.priority < r.priority
          · rw [if_pos hlt, if_pos hlt]
            exact Or.inl rfl
          · rw [if_neg hlt, if_neg hlt]
            exact Or.inr ⟨rfl, rfl⟩
      · rw [hmr, if_neg h, if_neg h]
        exact Or.inl rfl
    | succ j =>
      have hj' : j < rest.length := Nat.lt_of_succ_lt_succ hj
      simp only [List.get, List.set]
      rw [bestRule, bestRule]
      rcases ih j hj' with heq | ⟨hwin, hwin'⟩
      · rw [heq]
        exact Or.inl rfl
      · by_cases h : ruleMatches r t = true
        · rw [if_pos h, if_pos h, hwin, hwin']
          dsimp only [retargetRule]
          by_cases hlt : (rest.get ⟨j, hj'⟩).priority < r.priority
          · rw [if_pos hlt, if_pos hlt]
            exact Or.inr ⟨rfl, rfl⟩
          · rw [if_neg hlt, if_neg hlt]
            exact Or.inl rfl
        · rw [if_neg h, if_neg h, hwin, hwin']
          exact Or.inr ⟨rfl, rfl⟩

/-- Claim C2: the matcher returns the technician of the first matching rule
under ascending priority with insertion-order tie-break — every matching
rule placed before the winner in insertion order has strictly larger
priority, every one after has priority at least as large; when no rule
matches the result is unassigned and the prior assignment is kept; and
changing only the technician of a rule that is not the winner never changes
the result. -/
theorem matchRules_spec (rules : List AssignmentRule) (t : TicketAttrs)
    (prior : Option String) :
    ((∀ r ∈ rules, ruleMatches r t = false) →
      matchRules rules t = Option.none ∧
      applyAssignment prior (matchRules rules t) = prior) ∧
    (∀ tech, matchRules rules t = some tech →
      ∃ w, ruleMatches w t = true ∧ w.technician = tech ∧
        ∃ pre post, rules = pre ++ w :: post ∧
          (∀ r ∈ pre, ruleMatches r t = true → w.priority < r.priority) ∧
          (∀ r ∈ post, ruleMatches r t = true → w.priority ≤ r.priority)) ∧
    (∀ j (hj : j < rules.length) (c : String),
      bestRule t rules ≠ some (rules.get ⟨j, hj⟩) →
      matchRules (rules.set j (retargetRule (rules.get ⟨j, hj⟩) c)) t =
        matchRules rules t) := by
  refine ⟨fun hall => ?_, fun tech htech => ?_, fun j hj c hlose => ?_⟩
  · have h := (bestRule_eq_none t rules).mpr hall
    constructor
    · unfold matchRules
      rw [h]
      rfl
    · unfold matchRules
      rw [h]
      rfl
  · unfold matchRules at htech
    cases hbr : bestRule t rules with
    | none =>
      rw [hbr] at htech
      exact absurd htech (by simp)
    | some w =>
      rw [hbr] at htech
      obtain ⟨hmw, pre, post, heq, hpre, hpost⟩ := bestRule_first t rules w hbr
      exact ⟨w, hmw, by simpa using htech, pre, post, heq, hpre, hpost⟩
  · rcases bestRule_set_retarget t rules j hj c with h | ⟨hwin, _⟩
    · unfold matchRules
      rw [h]
    · exact absurd hwin hlose

/-- Claim C2 witness: with two rules matching the same ticket, the first has
lower priority and wins; retargeting the losing second rule from "carol" to
"dave" leaves the assignment unchanged. -/
theorem matchRules_spec_witness :
    matchRules
      (([⟨some "hw", Option.none, Option.none, "alice", 1⟩,
         ⟨some "hw", Option.none, Option.none, "carol", 2⟩] : List AssignmentRule).set 1
        (retargetRule
          (([⟨some "hw", Option.none, Option.none, "alice", 1⟩,
             ⟨some "hw", Option.none, Option.none, "carol", 2⟩] :
              List AssignmentRule).get ⟨1, by decide⟩) "dave"))
      ⟨"hw", "printer", "hq"⟩ =
    matchRules
      [⟨some "hw", Option.none, Option.none, "alice", 1⟩,
       ⟨some "hw", Option.none, Option.none, "carol", 2⟩]
      ⟨"hw", "printer", "hq"⟩ := by
  exact (matchRules_spec
      [⟨some "hw", Option.none, Option.none, "alice", 1⟩,
       ⟨some "hw", Option.none, Option.none, "carol", 2⟩]
      ⟨"hw", "printer", "hq"⟩ Option.none).2.2 1 (by decide) "dave" (by decide)

/-- The default suggestion threshold of the spec, 0.35. -/
def defaultThreshold : ℚ := 35 / 100

/-- Modelled from the spec: the candidate output of the `SuggestionScorer` of
§4.2, whose implementation is not part of the repository snapshot.  The
similarity measure itself is deliberately unspecified there and is passed in
as a function; an empty description yields no candidates, labels already
confirmed on the ticket are excluded, and of the remaining vocabulary
exactly the labels whose score meets or exceeds the threshold are retained
as `(label, score)` candidates. -/
def suggestionCandidates (score : String → String → ℚ) (desc : String)
    (confirmed vocab : List String) (threshold : ℚ) : List (String × ℚ) :=
  if desc = "" then []
  else
    ((vocab.filter (fun l => decide (l ∉ confirmed))).map
      (fun l => (l, score desc l))).filter (fun p => decide (p.2 ≥ threshold))

/-- Membership in the candidate output, characterised. -/
theorem mem_suggestionCandidates (score : String → String → ℚ) (desc : String)
    (confirmed vocab : List String) (threshold : ℚ) (l : String) (q : ℚ) :
    (l, q) ∈ suggestionCandidates score desc confirmed vocab threshold ↔
      desc ≠ "" ∧ l ∈ vocab ∧ l ∉ confirmed ∧ q = score desc l ∧ threshold ≤ q := by
  by_cases hd : desc = ""
  · simp [suggestionCandidates, hd]
  · simp only [suggestionCandidates, if_neg hd, List.mem_filter, List.mem_map,
      decide_eq_true_eq, ge_iff_le]
    constructor
    · rintro ⟨⟨a, ⟨ha1, ha2⟩, heq⟩, hth⟩
      injection heq with h1 h2
      subst h1
      subst h2
      exact ⟨hd, ha1, ha2, rfl, hth⟩
    · rintro ⟨-, hl, hlc, rfl, hth⟩
      exact ⟨⟨l, ⟨hl, hlc⟩, rfl⟩, hth⟩

/-- Claim C3: with a nonempty description, a non-confirmed vocabulary label
appears in the candidate output exactly when its score is at least the
threshold (so a label scoring exactly the threshold is included and one
scoring strictly below is excluded); an empty description yields no
candidates; and a label already confirmed on the ticket never appears. -/
theorem suggestionCandidates_spec (score : String → String → ℚ) (desc : String)
    (confirmed vocab : List String) (threshold : ℚ) :
    (desc ≠ "" → ∀ l ∈ vocab, l ∉ confirmed →
      ((l, score desc l) ∈ suggestionCandidates score desc confirmed vocab threshold ↔
        threshold ≤ score desc l)) ∧
    (desc = "" → suggestionCandidates score desc confirmed vocab threshold = []) ∧
    (∀ l ∈ confirmed, ∀ q,
      (l, q) ∉ suggestionCandidates score desc confirmed vocab threshold) := by
  refine ⟨fun hd l hl hlc => ?_, fun hd => by simp [suggestionCandidates, hd],
    fun l hl q hmem => ?_⟩
  · rw [mem_suggestionCandidates]
    simp [hd, hl, hlc]
  · rw [mem_suggestionCandidates] at hmem
    exact hmem.2.2.1 hl

/-- Claim C3 witness: with the default threshold 0.35, a label scoring
exactly 0.35 is retained as a candidate. -/
theorem suggestionCandidates_spec_witness :
    (("vpn", (35/100 : ℚ)) ∈
      suggestionCandidates (fun _ _ => 35/100) "sin red" [] ["vpn"] defaultThreshold) := by
  have h := (suggestionCandidates_spec (fun _ _ => (35/100 : ℚ)) "sin red" [] ["vpn"]
      defaultThreshold).1 (by decide) "vpn" (by simp) (by simp)
  exact h.mpr (by norm_num [defaultThreshold])

/-- Status of a label suggestion (one-way lifecycle of §9). -/
inductive SuggestionStatus where
  | pending
  | accepted
  | rejected
deriving DecidableEq

/-- A persisted label suggestion of one ticket. -/
structure Suggestion where
  label : String
  score : ℚ
  status : SuggestionStatus
deriving DecidableEq

/-- The created/updated/deleted counts reported by a recompute run. -/
structure ReconcileReport where
  created : Nat
  updated : Nat
  deleted : Nat
deriving DecidableEq

/-- The score-comparison epsilon suggested in §4.3, 0.01. -/
def scoreEpsilon : ℚ := 1 / 100

/-- Modelled from the spec: the fate of one persisted suggestion during
recompute (§4.3) — a suggestion whose status is not `pending` is never
touched; a pending one is deleted when its label is no longer a candidate,
rescored when the fresh score differs beyond the epsilon, kept as is
otherwise. -/
def keepSuggestion (eps : ℚ) (cands : List (String × ℚ)) (s : Suggestion) :
    Option Suggestion :=
  if s.status = .pending then
    match cands.lookup s.label with
    | Option.none => Option.none
    | some q => if eps < |q - s.score| then some { s with score := q } else some s
  else some s

/-- Modelled from the spec: the candidates created by recompute — those not
previously present on the ticket (the data-model invariant keeps at most one
suggestion per label, so a label carrying any existing suggestion is not
created anew). -/
def newCandidates (persisted : List Suggestion) (cands : List (String × ℚ)) :
    List (String × ℚ) :=
  cands.filter (fun c => !persisted.any (fun s => s.label == c.1))

/-- A pending suggestion is rescored when its fresh score differs beyond the
epsilon. -/
def updCondition (eps : ℚ) (cands : List (String × ℚ)) (s : Suggestion) : Bool :=
  s.status == .pending &&
    match cands.lookup s.label with
    | Option.none => false
    | some q => decide (eps < |q - s.score|)

/-- A pending suggestion is deleted when its label is no longer a candidate. -/
def delCondition (cands : List (String × ℚ)) (s : Suggestion) : Bool :=
  s.status == .pending && (cands.lookup s.label).isNone

/-- Modelled from the spec: the `SuggestionReconciler` of §4.3, whose
implementation is not part of the repository snapshot.  One recompute run
over one ticket: existing suggestions are kept, rescored or deleted by
`keepSuggestion`, fresh candidates are created as `pending`, and the run
reports the created/updated/deleted counts. -/
def reconcileTicket (eps : ℚ) (persisted : List Suggestion)
    (cands : List (String × ℚ)) : List Suggestion × ReconcileReport :=
  (persisted.filterMap (keepSuggestion eps cands) ++
      (newCandidates persisted cands).map (fun c => ⟨c.1, c.2, .pending⟩),
   { created := (newCandidates persisted cands).length
     updated := (persisted.filter (updCondition eps cands)).length
     deleted := (persisted.filter (delCondition cands)).length })

/-- Modelled from the spec: recompute over a ticket set — per-ticket
reconciliation of each (persisted, candidates) pair, with the report counts
summed across tickets. -/
def recomputeBatch (eps : ℚ) (work : List (List Suggestion × List (String × ℚ))) :
    List (List Suggestion) × ReconcileReport :=
  (work.map (fun w => (reconcileTicket eps w.1 w.2).1),
   { created := (work.map (fun w => (reconcileTicket eps w.1 w.2).2.created)).sum
     updated := (work.map (fun w => (reconcileTicket eps w.1 w.2).2.updated)).sum
     deleted := (work.map (fun w => (reconcileTicket eps w.1 w.2).2.deleted)).sum })

/-- A transform fixing every element of a list filter-maps it to itself. -/
theorem filterMap_id_of_forall (f : Suggestion → Option Suggestion)
    (l : List Suggestion) (h : ∀ s ∈ l, f s = some s) : l.filterMap f = l := by
  induction l with
  | nil => rfl
  | cons a l ih =>
    simp [List.filterMap_cons, h a (List.mem_cons_self a l),
      ih fun s hs => h s (List.mem_cons_of_mem a hs)]

/-- A key present in an association list is found by `lookup`. -/
theorem lookup_mem_keys (cands : List (String × ℚ)) (l : String)
    (h : l ∈ cands.map Prod.fst) : ∃ q, cands.lookup l = some q := by
  induction cands with
  | nil => simp at h
  | cons c rest ih =>
    obtain ⟨k, v⟩ := c
    by_cases hc : k = l
    · exact ⟨v, by simp [List.lookup, hc]⟩
    · rcases List.mem_map.mp h with ⟨p, hp, hpl⟩
      rcases List.mem_cons.mp hp with rfl | hp'
      · exact absurd hpl hc
      · obtain ⟨q, hq⟩ := ih (hpl ▸ List.mem_map_of_mem Prod.fst hp')
        have hbk : (l == k) = false := beq_eq_false_iff_ne.mpr (Ne.symm hc)
        exact ⟨q, by simp [List.lookup, hbk, hq]⟩

/-- With nodup keys, `lookup` finds exactly the stored value. -/
theorem lookup_eq_of_mem_nodup (cands : List (String × ℚ)) (l : String) (q : ℚ)
    (hnd : (cands.map Prod.fst).Nodup) (hmem : (l, q) ∈ cands) :
    cands.lookup l = some q := by
  induction cands with
  | nil => simp at hmem
  | cons c rest ih =>
    obtain ⟨k, v⟩ := c
    rcases List.mem_cons.mp hmem with heq | hmem'
    · injection heq with h1 h2
      subst h1
      subst h2
      simp [List.lookup]
    · have hk : k ≠ l := by
        intro hkl
        subst hkl
        exact (List.nodup_cons.mp (by simpa using hnd)).1
          (List.mem_map_of_mem Prod.fst hmem')
      have hnd' : (rest.map Prod.fst).Nodup := (List.nodup_cons.mp (by simpa using hnd)).2
      have hbk : (l == k) = false := beq_eq_false_iff_ne.mpr (Ne.symm hk)
      simp [List.lookup, hbk, ih hnd' hmem']

/-- `keepSuggestion` never changes the label. -/
theorem keepSuggestion_label (eps : ℚ) (cands : List (String × ℚ))
    (s s' : Suggestion) (h : keepSuggestion eps cands s = some s') :
    s'.label = s.label := by
  unfold keepSuggestion at h
  by_cases hst : s.status = .pending
  · rw [if_pos hst] at h
    cases hq : cands.lookup s.label with
    | none =>
      rw [hq] at h
      exact absurd h (by simp)
    | some q =>
      rw [hq] at h
      dsimp only at h
      by_cases hd : eps < |q - s.score|
      · rw [if_pos hd] at h
        obtain rfl : { s with score := q } = s' := Option.some.inj h
        rfl
      · rw [if_neg hd] at h
        obtain rfl : s = s' := Option.some.inj h
        rfl
  · rw [if_neg hst] at h
    obtain rfl : s = s' := Option.some.inj h
    rfl

/-- `keepSuggestion` returns the suggestion unchanged or a pending one. -/
theorem keepSuggestion_status (eps : ℚ) (cands : List (String × ℚ))
    (s s' : Suggestion) (h : keepSuggestion eps cands s = some s') :
    s' = s ∨ s'.status = .pending := by
  unfold keepSuggestion at h
  by_cases hst : s.status = .pending
  · rw [if_pos hst] at h
    cases hq : cands.lookup s.label with
    | none =>
      rw [hq] at h
      exact absurd h (by simp)
    | some q =>
      rw [hq] at h
      dsimp only at h
      by_cases hd : eps < |q - s.score|
      · rw [if_pos hd] at h
        obtain rfl : { s with score := q } = s' := Option.some.inj h
        exact Or.inr hst
      · rw [if_neg hd] at h
        obtain rfl : s = s' := Option.some.inj h
        exact Or.inl rfl
  · rw [if_neg hst] at h
    obtain rfl : s = s' := Option.some.inj h
    exact Or.inl rfl

/-- After one recompute run, every surviving suggestion is a fixed point of
`keepSuggestion`. -/
theorem keep_state_fixed (eps : ℚ) (persisted : List Suggestion)
    (cands : List (String × ℚ)) (heps : 0 ≤ eps)
    (hnd : (cands.map Prod.fst).Nodup) (s : Suggestion)
    (hs : s ∈ (reconcileTicket eps persisted cands).1) :
    keepSuggestion eps cands s = some s := by
  rcases List.mem_append.mp hs with hA | hB
  · rcases List.mem_filterMap.mp hA with ⟨s0, hs0, hk⟩
    unfold keepSuggestion at hk ⊢
    by_cases hst : s0.status = .pending
    · rw [if_pos hst] at hk
      cases hq : cands.lookup s0.label with
      | none =>
        rw [hq] at hk
        exact absurd hk (by simp)
      | some q =>
        rw [hq] at hk
        dsimp only at hk
        by_cases hd : eps < |q - s0.score|
        · rw [if_pos hd] at hk
          obtain rfl : { s0 with score := q } = s := Option.some.inj hk
          dsimp only
          rw [if_pos hst, hq]
          dsimp only
          rw [if_neg (by simpa using not_lt.mpr heps)]
        · rw [if_neg hd] at hk
          obtain rfl : s0 = s := Option.some.inj hk
          rw [if_pos hst, hq]
          dsimp only
          rw [if_neg hd]
    · rw [if_neg hst] at hk
      obtain rfl : s0 = s := Option.some.inj hk
      rw [if_neg hst]
  · rcases List.mem_map.mp hB with ⟨c, hc, heq⟩
    obtain ⟨hcc, hnp⟩ := List.mem_filter.mp hc
    subst heq
    have hl : cands.lookup c.1 = some c.2 :=
      lookup_eq_of_mem_nodup cands c.1 c.2 hnd hcc
    unfold keepSuggestion
    dsimp only
    rw [if_pos rfl, hl]
    dsimp only
    rw [if_neg (by simpa using not_lt.mpr heps)]

/-- After one recompute run, every candidate label is present in the state. -/
theorem cand_label_in_state (eps : ℚ) (persisted : List Suggestion)
    (cands : List (String × ℚ)) (c : String × ℚ) (hc : c ∈ cands) :
    ∃ s ∈ (reconcileTicket eps persisted cands).1, s.label = c.1 := by
  by_cases hp : persisted.any (fun s => s.label == c.1) = true
  · obtain ⟨s0, hs0, hb⟩ := List.any_eq_true.mp hp
    have hlab : s0.label = c.1 := by simpa using hb
    by_cases hst : s0.status = .pending
    · obtain ⟨q, hq⟩ := lookup_mem_keys cands s0.label
        (hlab ▸ List.mem_map_of_mem Prod.fst hc)
      by_cases hd : eps < |q - s0.score|
      · refine ⟨{ s0 with score := q }, List.mem_append_left _ ?_, hlab⟩
        exact List.mem_filterMap.mpr
          ⟨s0, hs0, by rw [keepSuggestion, if_pos hst, hq]; dsimp only; rw [if_pos hd]⟩
      · refine ⟨s0, List.mem_append_left _ ?_, hlab⟩
        exact List.mem_filterMap.mpr
          ⟨s0, hs0, by rw [keepSuggestion, if_pos hst, hq]; dsimp only; rw [if_neg hd]⟩
    · refine ⟨s0, List.mem_append_left _ ?_, hlab⟩
      exact List.mem_filterMap.mpr ⟨s0, hs0, by rw [keepSuggestion, if_neg hst]⟩
  · refine ⟨⟨c.1, c.2, .pending⟩, List.mem_append_right _ ?_, rfl⟩
    refine List.mem_map.mpr ⟨c, ?_, rfl⟩
    exact List.mem_filter.mpr ⟨hc, by simp [hp]⟩

/-- A pending fixed point of `keepSuggestion` has a candidate score within
the epsilon of its stored score. -/
theorem keep_fixed_pending (eps : ℚ) (cands : List (String × ℚ)) (s : Suggestion)
    (h : keepSuggestion eps cands s = some s) (hst : s.status = .pending)
    (heps : 0 ≤ eps) :
    ∃ q, cands.lookup s.label = some q ∧ ¬ eps < |q - s.score| := by
  unfold keepSuggestion at h
  rw [if_pos hst] at h
  cases hq : cands.lookup s.label with
  | none =>
    rw [hq] at h
    exact absurd h (by simp)
  | some q =>
    rw [hq] at h
    dsimp only at h
    by_cases hd : eps < |q - s.score|
    · rw [if_pos hd] at h
      have hqs : q = s.score := by
        have := congrArg Suggestion.score (Option.some.inj h)
        simpa using this
      rw [hqs] at hd
      simp at hd
      exact absurd heps (not_le.mpr hd)
    · exact ⟨q, rfl, hd⟩

/-- One recompute run is a fixed point: a second run over the same ticket
with the same candidates returns the same state and reports zeros. -/
theorem reconcileTicket_idempotent (eps : ℚ) (persisted : List Suggestion)
    (cands : List (String × ℚ)) (heps : 0 ≤ eps)
    (hnd : (cands.map Prod.fst).Nodup) :
    reconcileTicket eps (reconcileTicket eps persisted cands).1 cands =
      ((reconcileTicket eps persisted cands).1, ⟨0, 0, 0⟩) := by
  have hfix : ∀ s ∈ (reconcileTicket eps persisted cands).1,
      keepSuggestion eps cands s = some s :=
    fun s hs => keep_state_fixed eps persisted cands heps hnd s hs
  have hnew : newCandidates (reconcileTicket eps persisted cands).1 cands = [] := by
    rw [newCandidates, List.filter_eq_nil_iff]
    intro c hc
    obtain ⟨s, hsmem, hslab⟩ := cand_label_in_state eps persisted cands c hc
    simp only [Bool.not_eq_true', Bool.not_eq_false]
    exact List.any_eq_true.mpr ⟨s, hsmem, by simp [hslab]⟩
  have hfm : (reconcileTicket eps persisted cands).1.filterMap
      (keepSuggestion eps cands) = (reconcileTicket eps persisted cands).1 :=
    filterMap_id_of_forall _ _ hfix
  have hupd : (reconcileTicket eps persisted cands).1.filter
      (updCondition eps cands) = [] := by
    rw [List.filter_eq_nil_iff]
    intro s hs
    by_cases hst : s.status = .pending
    · obtain ⟨q, hq, hd⟩ := keep_fixed_pending eps cands s (hfix s hs) hst heps
      simp [updCondition, hq, hd]
    · simp [updCondition, hst]
  have hdel : (reconcileTicket eps persisted cands).1.filter
      (delCondition cands) = [] := by
    rw [List.filter_eq_nil_iff]
    intro s hs
    by_cases hst : s.status = .pending
    · obtain ⟨q, hq, hd⟩ := keep_fixed_pending eps cands s (hfix s hs) hst heps
      simp [delCondition, hq]
    · simp [delCondition, hst]
  set st1 := (reconcileTicket eps persisted cands).1 with hst1
  unfold reconcileTicket
  rw [Prod.mk.injEq]
  constructor
  · rw [hnew, hfm]
    simp
  · rw [ReconcileReport.mk.injEq]
    refine ⟨?_, ?_, ?_⟩
    · rw [hnew]
      rfl
    · rw [hupd]
      rfl
    · rw [hdel]
      rfl

/-- Claim C4: suggestion recompute over a ticket set is idempotent — with
candidates (rules, vocabulary and threshold) unchanged, feeding the states
produced by one batch run into a second run returns exactly those states and
the second run reports created = updated = deleted = 0. -/
theorem recompute_idempotent (eps : ℚ)
    (work : List (List Suggestion × List (String × ℚ))) (heps : 0 ≤ eps)
    (hnd : ∀ w ∈ work, (w.2.map Prod.fst).Nodup) :
    recomputeBatch eps (work.map fun w => ((reconcileTicket eps w.1 w.2).1, w.2)) =
      ((recomputeBatch eps work).1, ⟨0, 0, 0⟩) := by
  have hone : ∀ w ∈ work,
      reconcileTicket eps (reconcileTicket eps w.1 w.2).1 w.2 =
        ((reconcileTicket eps w.1 w.2).1, ⟨0, 0, 0⟩) :=
    fun w hw => reconcileTicket_idempotent eps w.1 w.2 heps (hnd w hw)
  unfold recomputeBatch
  rw [Prod.mk.injEq]
  constructor
  · rw [List.map_map]
    apply List.map_congr_left
    intro w hw
    simp only [Function.comp]
    rw [hone w hw]
  · rw [ReconcileReport.mk.injEq]
    refine ⟨?_, ?_, ?_⟩ <;>
    · rw [List.map_map]
      apply List.sum_eq_zero
      intro x hx
      rcases List.mem_map.mp hx with ⟨w, hw, rfl⟩
      simp only [Function.comp]
      rw [hone w hw]

/-- Claim C4 witness: one ticket with one pending suggestion, one candidate;
the second run over the state of the first reports zeros. -/
theorem recompute_idempotent_witness :
    recomputeBatch (1/100)
        ([([⟨"vpn", 1/2, .pending⟩], [("wifi", 2/5)])].map
          (fun w => ((reconcileTicket (1/100) w.1 w.2).1, w.2))) =
      ((recomputeBatch (1/100) [([⟨"vpn", 1/2, .pending⟩], [("wifi", 2/5)])]).1,
        ⟨0, 0, 0⟩) :=
  recompute_idempotent (1/100) [([⟨"vpn", 1/2, .pending⟩], [("wifi", 2/5)])]
    (by norm_num) (by simp)

/-- Surviving labels form a sublist of the persisted labels. -/
theorem keep_labels_sublist (eps : ℚ) (cands : List (String × ℚ))
    (l : List Suggestion) :
    ((l.filterMap (keepSuggestion eps cands)).map Suggestion.label).Sublist
      (l.map Suggestion.label) := by
  induction l with
  | nil => simp
  | cons a l ih =>
    rw [List.filterMap_cons]
    cases hk : keepSuggestion eps cands a with
    | none =>
      simp only [List.map_cons]
      exact ih.cons _
    | some b =>
      simp only [List.map_cons]
      rw [keepSuggestion_label eps cands a b hk]
      exact ih.cons₂ _

/-- Claim C5: every recompute run leaves accepted suggestions untouched
(never deleted, never rescored), and more generally keeps every non-pending
suggestion — rejected ones included — byte for byte, so only pending
suggestions can be deleted; everything it creates or changes is pending;
and the at-most-one-suggestion-per-label invariant is preserved. -/
theorem reconcile_invariants (eps : ℚ) (persisted : List Suggestion)
    (cands : List (String × ℚ)) :
    (∀ s ∈ persisted, s.status = .accepted →
      s ∈ (reconcileTicket eps persisted cands).1) ∧
    (∀ s ∈ persisted, s.status ≠ .pending →
      s ∈ (reconcileTicket eps persisted cands).1) ∧
    (∀ s ∈ persisted, s ∉ (reconcileTicket eps persisted cands).1 →
      s.status = .pending) ∧
    (∀ s ∈ (reconcileTicket eps persisted cands).1,
      s ∈ persisted ∨ s.status = .pending) ∧
    ((persisted.map Suggestion.label).Nodup → (cands.map Prod.fst).Nodup →
      ((reconcileTicket eps persisted cands).1.map Suggestion.label).Nodup) := by
  have hkeep : ∀ s ∈ persisted, s.status ≠ .pending →
      s ∈ (reconcileTicket eps persisted cands).1 := by
    intro s hs hnp
    apply List.mem_append_left
    refine List.mem_filterMap.mpr ⟨s, hs, ?_⟩
    rw [keepSuggestion, if_neg hnp]
  refine ⟨fun s hs hacc => hkeep s hs (by simp [hacc]), hkeep,
    fun s hs hnmem => ?_, fun s hs => ?_, fun hndp hndc => ?_⟩
  · by_contra hnp
    exact hnmem (hkeep s hs hnp)
  · rcases List.mem_append.mp hs with hA | hB
    · rcases List.mem_filterMap.mp hA with ⟨s0, hs0, hk⟩
      rcases keepSuggestion_status eps cands s0 s hk with rfl | hpend
      · exact Or.inl hs0
      · exact Or.inr hpend
    · rcases List.mem_map.mp hB with ⟨c, hcNew, heq⟩
      subst heq
      exact Or.inr rfl
  · unfold reconcileTicket
    dsimp only
    rw [List.map_append, List.nodup_append]
    refine ⟨(keep_labels_sublist eps cands persisted).nodup hndp, ?_, ?_⟩
    · have hmm : ((newCandidates persisted cands).map
          (fun c => (⟨c.1, c.2, .pending⟩ : Suggestion))).map Suggestion.label =
          (newCandidates persisted cands).map Prod.fst := by
        rw [List.map_map]
        rfl
      rw [hmm]
      exact ((List.filter_sublist cands).map Prod.fst).nodup hndc
    · intro lab hA hB
      rcases List.mem_map.mp hA with ⟨s, hsA, rfl⟩
      rcases List.mem_filterMap.mp hsA with ⟨s0, hs0, hk⟩
      rcases List.mem_map.mp hB with ⟨s1, hs1B, hlab1⟩
      rcases List.mem_map.mp hs1B with ⟨c, hcNew, rfl⟩
      obtain ⟨hcc, hnp⟩ := List.mem_filter.mp hcNew
      have hany : persisted.any (fun x => x.label == c.1) = false := by
        simpa using hnp
      have hlabs : s0.label = c.1 := by
        rw [← keepSuggestion_label eps cands s0 s hk]
        exact hlab1.symm
      have hb : (fun x => x.label == c.1) s0 = true := by
        show (s0.label == c.1) = true
        exact beq_iff_eq.mpr hlabs
      have hcontra : persisted.any (fun x => x.label == c.1) = true :=
        List.any_eq_true.mpr ⟨s0, hs0, hb⟩
      rw [hany] at hcontra
      exact absurd hcontra (by simp)

/-- Claim C5 witness: concrete accepted and rejected suggestions both
survive a recompute run whose candidate set no longer contains their labels
at all. -/
theorem reconcile_invariants_witness :
    (⟨"vpn", 9/10, .accepted⟩ : Suggestion) ∈
      (reconcileTicket scoreEpsilon
        [⟨"vpn", 9/10, .accepted⟩, ⟨"wifi", 1/5, .rejected⟩] []).1 ∧
    (⟨"wifi", 1/5, .rejected⟩ : Suggestion) ∈
      (reconcileTicket scoreEpsilon
        [⟨"vpn", 9/10, .accepted⟩, ⟨"wifi", 1/5, .rejected⟩] []).1 :=
  ⟨(reconcile_invariants scoreEpsilon
      [⟨"vpn", 9/10, .accepted⟩, ⟨"wifi", 1/5, .rejected⟩] []).1
      ⟨"vpn", 9/10, .accepted⟩ (by simp) rfl,
   (reconcile_invariants scoreEpsilon
      [⟨"vpn", 9/10, .accepted⟩, ⟨"wifi", 1/5, .rejected⟩] []).2.1
      ⟨"wifi", 1/5, .rejected⟩ (by simp) (by simp)⟩

/-- Errors of the acceptance operation (§4.3, §7). -/
inductive AcceptError where
  | notFound
  | invalidState
deriving DecidableEq

/-- A suggestion as stored, carrying its id and its owning ticket. -/
structure StoredSuggestion where
  id : Nat
  ticketId : Nat
  label : String
  score : ℚ
  status : SuggestionStatus
deriving DecidableEq

/-- Modelled from the spec: the user-triggered acceptance operation of §4.3,
whose implementation is not part of the repository snapshot.  Given the
suggestion store and the ticket's confirmed label set, it looks the
suggestion up by id on the given ticket; a missing or foreign suggestion
fails with `notFound` and a rejected one with `invalidState`, both leaving
the state unchanged; otherwise the suggestion is marked `accepted` and its
label joins the confirmed label set. -/
def acceptSuggestion (store : List StoredSuggestion) (confirmed : List String)
    (ticketId sid : Nat) :
    (List StoredSuggestion × List String) × Option AcceptError :=
  match store.find? (fun s => s.id == sid && s.ticketId == ticketId) with
  | Option.none => ((store, confirmed), some .notFound)
  | some s =>
    if s.status = .rejected then ((store, confirmed), some .invalidState)
    else
      ((store.map (fun x =>
          if x.id == sid && x.ticketId == ticketId then
            { x with status := .accepted }
          else x),
        if s.label ∈ confirmed then confirmed else confirmed ++ [s.label]),
       Option.none)

/-- Claim C6: acceptance succeeds exactly when the suggestion exists on the
given ticket and is not rejected; a missing or foreign suggestion yields
`notFound`, a rejected one `invalidState`, and any failure leaves the store
and the label set unchanged; success marks the suggestion `accepted`, keeps
every other suggestion, and adds the label to the confirmed set while
keeping the previous labels. -/
theorem acceptSuggestion_spec (store : List StoredSuggestion)
    (confirmed : List String) (tid sid : Nat)
    (hids : (store.map StoredSuggestion.id).Nodup) :
    (((acceptSuggestion store confirmed tid sid).2 = Option.none) ↔
      ∃ s ∈ store, s.id = sid ∧ s.ticketId = tid ∧ s.status ≠ .rejected) ∧
    (∀ e, (acceptSuggestion store confirmed tid sid).2 = some e →
      (acceptSuggestion store confirmed tid sid).1 = (store, confirmed)) ∧
    ((∀ s ∈ store, ¬(s.id = sid ∧ s.ticketId = tid)) →
      (acceptSuggestion store confirmed tid sid).2 = some .notFound) ∧
    (∀ s, store.find? (fun x => x.id == sid && x.ticketId == tid) = some s →
      (s.status = .rejected →
        (acceptSuggestion store confirmed tid sid).2 = some .invalidState) ∧
      (s.status ≠ .rejected →
        (acceptSuggestion store confirmed tid sid).2 = Option.none ∧
        { s with status := .accepted } ∈ (acceptSuggestion store confirmed tid sid).1.1 ∧
        (∀ x ∈ store, x.id ≠ sid → x ∈ (acceptSuggestion store confirmed tid sid).1.1) ∧
        s.label ∈ (acceptSuggestion store confirmed tid sid).1.2 ∧
        (∀ l ∈ confirmed, l ∈ (acceptSuggestion store confirmed tid sid).1.2))) := by
  refine ⟨?_, ?_, ?_, ?_⟩
  · constructor
    · intro hok
      unfold acceptSuggestion at hok
      cases hf : store.find? (fun s => s.id == sid && s.ticketId == tid) with
      | none =>
        rw [hf] at hok
        exact absurd hok (by simp)
      | some s =>
        rw [hf] at hok
        dsimp only at hok
        by_cases hrej : s.status = .rejected
        · rw [if_pos hrej] at hok
          exact absurd hok (by simp)
        · have hp := List.find?_some hf
          simp only [Bool.and_eq_true, beq_iff_eq] at hp
          exact ⟨s, List.mem_of_find?_eq_some hf, hp.1, hp.2, hrej⟩
    · rintro ⟨s, hs, hid, htid, hrej⟩
      unfold acceptSuggestion
      cases hf : store.find? (fun x => x.id == sid && x.ticketId == tid) with
      | none =>
        have := List.find?_eq_none.mp hf s hs
        simp [hid, htid] at this
      | some s' =>
        have hp := List.find?_some hf
        simp only [Bool.and_eq_true, beq_iff_eq] at hp
        have hss : s' = s :=
          List.inj_on_of_nodup_map hids (List.mem_of_find?_eq_some hf) hs
            (by rw [hp.1, hid])
        subst hss
        dsimp only
        rw [if_neg hrej]
  · intro e he
    unfold acceptSuggestion at he ⊢
    cases hf : store.find? (fun s => s.id == sid && s.ticketId == tid) with
    | none => rfl
    | some s =>
      rw [hf] at he
      dsimp only at he
      dsimp only
      by_cases hrej : s.status = .rejected
      · rw [if_pos hrej]
      · rw [if_neg hrej] at he
        exact absurd he (by simp)
  · intro hall
    unfold acceptSuggestion
    cases hf : store.find? (fun s => s.id == sid && s.ticketId == tid) with
    | none => rfl
    | some s =>
      have hp := List.find?_some hf
      simp only [Bool.and_eq_true, beq_iff_eq] at hp
      exact absurd (And.intro hp.1 hp.2) (hall s (List.mem_of_find?_eq_some hf))
  · intro s hf
    have hp := List.find?_some hf
    simp only [Bool.and_eq_true, beq_iff_eq] at hp
    constructor
    · intro hrej
      unfold acceptSuggestion
      rw [hf]
      dsimp only
      rw [if_pos hrej]
    · intro hrej
      unfold acceptSuggestion
      rw [hf]
      dsimp only
      rw [if_neg hrej]
      refine ⟨rfl, ?_, ?_, ?_, ?_⟩
      · have hmem := List.mem_of_find?_eq_some hf
        refine List.mem_map.mpr ⟨s, hmem, ?_⟩
        rw [if_pos (by simp [hp.1, hp.2])]
      · intro x hx hxid
        refine List.mem_map.mpr ⟨x, hx, ?_⟩
        rw [if_neg (by simp [hxid])]
      · by_cases hl : s.label ∈ confirmed
        · simp [hl]
        · simp [hl]
      · intro l hl
        by_cases hlc : s.label ∈ confirmed
        · simpa [hlc] using hl
        · simp [hlc, hl]

/-- Claim C6 witness: accepting a concrete pending suggestion on its own
ticket succeeds. -/
theorem acceptSuggestion_spec_witness :
    (acceptSuggestion [⟨1, 10, "vpn", 1/2, .pending⟩] [] 10 1).2 = Option.none :=
  ((acceptSuggestion_spec [⟨1, 10, "vpn", 1/2, .pending⟩] [] 10 1 (by simp)).1).mpr
    ⟨⟨1, 10, "vpn", 1/2, .pending⟩, by simp, rfl, rfl, by simp⟩

/-- The categorical feature vector of a ticket used for clustering (§4.4). -/
structure TicketFeatures where
  category : String
  subcategory : String
  area : String
  priority : TicketPriority
  status : TicketStatus
deriving DecidableEq

/-- A simple deterministic string hash. -/
def stringHash (s : String) : Nat :=
  s.toList.foldl (fun h c => h * 31 + c.toNat) 7

/-- Modelled from the spec: the injectable seeded pseudo-random source of §9
mixed with the categorical feature representation of §4.4 — a deterministic
hash of the features and the seed. -/
def featureHash (seed : Nat) (f : TicketFeatures) : Nat :=
  seed * 1103515245 + 12345 + stringHash f.category * 3 +
    stringHash f.subcategory * 5 + stringHash f.area * 7 +
    (match f.priority with
      | .low => 0
      | .medium => 1
      | .high => 2
      | .critical => 3) * 11 +
    (match f.status with
      | .open_ => 0
      | .inProgress => 1
      | .resolved => 2
      | .closed => 3) * 13

/-- Modelled from the spec: the effective cluster count — the requested `k`
capped by the number of distinct feature vectors in the processed set. -/
def effectiveClusterCount (tickets : List (Nat × TicketFeatures)) (k : Nat) : Nat :=
  min k ((tickets.map Prod.snd).dedup.length)

/-- Modelled from the spec: the `ClusterRetrainer` of §4.4, whose
implementation is not part of the repository snapshot.  A seeded
deterministic partition: each ticket goes to the cluster given by the seeded
feature hash modulo the effective cluster count, and the output replaces the
prior assignment wholesale. -/
def retrain (tickets : List (Nat × TicketFeatures)) (k : Nat) (seed : Nat) :
    List (Nat × Nat) :=
  tickets.map (fun t => (t.1, featureHash seed t.2 % effectiveClusterCount tickets k))

/-- Claim C7: retraining is deterministic — equal (ticketSet, k, seed)
inputs give identical ticketId-to-clusterId mappings over exactly the input
ticket ids; the effective cluster count is at most `k`, every assigned
cluster id lies below it, and it is strictly smaller than `k` whenever the
set has fewer distinct feature vectors than `k`. -/
theorem retrain_spec (tickets tickets2 : List (Nat × TicketFeatures))
    (k k2 seed seed2 : Nat) :
    (tickets = tickets2 → k = k2 → seed = seed2 →
      retrain tickets k seed = retrain tickets2 k2 seed2) ∧
    ((retrain tickets k seed).map Prod.fst = tickets.map Prod.fst) ∧
    (effectiveClusterCount tickets k ≤ k) ∧
    (0 < k → tickets ≠ [] →
      ∀ p ∈ retrain tickets k seed, p.2 < effectiveClusterCount tickets k) ∧
    ((tickets.map Prod.snd).dedup.length < k → effectiveClusterCount tickets k < k) := by
  refine ⟨fun h1 h2 h3 => by rw [h1, h2, h3], ?_, ?_, fun hk hne p hp => ?_, fun hd => ?_⟩
  · rw [retrain, List.map_map]
    rfl
  · exact min_le_left _ _
  · have hpos : 0 < effectiveClusterCount tickets k := by
      rw [effectiveClusterCount]
      apply lt_min hk
      have hnd : (tickets.map Prod.snd).dedup ≠ [] := by
        rw [Ne, List.dedup_eq_nil]
        simpa using hne
      exact List.length_pos.mpr hnd
    rcases List.mem_map.mp hp with ⟨t, ht, rfl⟩
    exact Nat.mod_lt _ hpos
  · exact lt_of_le_of_lt (min_le_right _ _) hd

/-- Claim C7 witness: a single ticket requested into five clusters uses
fewer than five effective clusters. -/
theorem retrain_spec_witness :
    effectiveClusterCount [(1, ⟨"hw", "imp", "hq", .high, .open_⟩)] 5 < 5 :=
  (retrain_spec [(1, ⟨"hw", "imp", "hq", .high, .open_⟩)]
    [(1, ⟨"hw", "imp", "hq", .high, .open_⟩)] 5 5 42 42).2.2.2.2 (by decide)
